import Mathlib

/-!
Verification of the Thermotron 3800 mode decoder
(`pymeasure/instruments/thermotron/thermotron3800.py`).

The decoder consists of two functions:

* `Thermotron3800.get_bit_array_from_int`, a while-loop that scans a mask
  starting at `0x1` and doubling each iteration (`mask = mask << 1`) while
  `mask <= mode_int`, collecting each nonzero `mode_int & mask`;
* `Thermotron3800.__translate_mode`, which ORs each collected bit into an
  accumulator when the bit is a named `Thermotron3800Mode` member and ORs in
  the `UNKNOWN_MODE` sentinel (-1) otherwise, returning `UNKNOWN_MODE` when
  the accumulator is zero.

Python integers are arbitrary-precision signed integers, embedded here as
`ℤ`.  The `IntFlag` values are embedded by their integer values, and the
membership test `Thermotron3800Mode(bit) in Thermotron3800Mode` (true
exactly when `bit` equals the value of a named member) is embedded as a
decidable membership test in the list of the nine named members' values.
The unbounded `while` loop is embedded with an explicit iteration budget
(`fuel`); `getBitLoop_isSome` below proves that the budget used by
`get_bit_array_from_int` always suffices, because the mask strictly doubles.
-/

namespace Thermotron3800

namespace Thermotron3800Mode

/-- `Thermotron3800Mode.PROGRAM_MODE = 1` (bit 0). -/
def PROGRAM_MODE : Int := 1

/-- `Thermotron3800Mode.EDIT_MODE_STOP = 2` (bit 1). -/
def EDIT_MODE_STOP : Int := 2

/-- `Thermotron3800Mode.VIEW_PROGRAM_MODE = 4` (bit 2). -/
def VIEW_PROGRAM_MODE : Int := 4

/-- `Thermotron3800Mode.EDIT_MODE_HOLD = 8` (bit 3). -/
def EDIT_MODE_HOLD : Int := 8

/-- `Thermotron3800Mode.MANUAL_MODE = 16` (bit 4). -/
def MANUAL_MODE : Int := 16

/-- `Thermotron3800Mode.DELAYED_START_MODE = 32` (bit 5). -/
def DELAYED_START_MODE : Int := 32

/-- `Thermotron3800Mode.UNUSED = 64` (bit 6). -/
def UNUSED : Int := 64

/-- `Thermotron3800Mode.CALIBRATION_MODE = 128` (bit 7). -/
def CALIBRATION_MODE : Int := 128

/-- `Thermotron3800Mode.UNKNOWN_MODE = -1`, the sentinel member. -/
def UNKNOWN_MODE : Int := -1

/-- The values of the nine named members of the `Thermotron3800Mode`
`IntFlag` enumeration, in declaration order. -/
def memberValues : List Int :=
  [PROGRAM_MODE, EDIT_MODE_STOP, VIEW_PROGRAM_MODE, EDIT_MODE_HOLD,
   MANUAL_MODE, DELAYED_START_MODE, UNUSED, CALIBRATION_MODE, UNKNOWN_MODE]

/-- Embedding of the membership test
`Thermotron3800Mode(bit) in Thermotron3800Mode`: under the Python version
this driver targets, constructing an `IntFlag` from a value that is not a
named member yields a pseudo-member whose name is `None`, and the `in`
test against the class is true exactly for named members. -/
def isNamedMember (v : Int) : Bool :=
  decide (v ∈ memberValues)

end Thermotron3800Mode

/-- The mask value after `k` iterations: the source's `mask` starts at
`0x1` and is shifted left by one (`mask = mask << 1`) once per iteration,
so after `k` iterations it equals `1 << k = 2 ^ k`. -/
def maskVal (k : Nat) : Int := ((2 ^ k : Nat) : Int)

/-- One-step-indexed embedding of the `while mask <= mode_int` loop of
`get_bit_array_from_int`.  `fuel` bounds the number of remaining loop-guard
evaluations; `none` means the budget was exhausted (which
`getBitLoop_isSome` proves never happens for the budget chosen below).
Each iteration computes `bit = mode_int & mask`, doubles the mask, and
appends `bit` to the accumulator when `bit != 0`. -/
def getBitLoop : Nat → Int → Nat → List Int → Option (List Int)
  | 0, _, _, _ => none
  | fuel + 1, modeInt, k, acc =>
    if maskVal k ≤ modeInt then
      let bit := Int.land modeInt (maskVal k)
      getBitLoop fuel modeInt (k + 1) (if bit ≠ 0 then acc ++ [bit] else acc)
    else some acc

/-- Embedding of `Thermotron3800.get_bit_array_from_int`: starting from
`mode_bits = []` and `mask = 0x1`, run the loop.  The iteration budget
`mode_int.toNat + 1` always suffices (`getBitLoop_isSome`), so the `getD`
default is never taken. -/
def get_bit_array_from_int (mode_int : Int) : List Int :=
  (getBitLoop (mode_int.toNat + 1) mode_int 0 []).getD []

/-- Embedding of the `for bit in mode_bits` loop of `__translate_mode`:
`mode |= Thermotron3800Mode(bit)` when `bit` is a named member, else
`mode |= Thermotron3800Mode.UNKNOWN_MODE`. -/
def translateLoop : List Int → Int → Int
  | [], mode => mode
  | bit :: rest, mode =>
    if Thermotron3800Mode.isNamedMember bit then
      translateLoop rest (Int.lor mode bit)
    else
      translateLoop rest (Int.lor mode Thermotron3800Mode.UNKNOWN_MODE)

/-- Embedding of `Thermotron3800.__translate_mode` on integer input:
decompose the status code into its set bits, fold the bits into `mode`
starting from `0`, and return `UNKNOWN_MODE` if the result is zero. -/
def translate_mode (mode_coded_integer : Int) : Int :=
  let mode_bits := get_bit_array_from_int mode_coded_integer
  let mode := translateLoop mode_bits 0
  if mode ≠ 0 then mode else Thermotron3800Mode.UNKNOWN_MODE

/-- Modelled from the spec: the value of a decimal digit character, `none`
for a non-digit. Auxiliary to `parseIntText`. -/
def digitVal (c : Char) : Option Nat :=
  if '0' ≤ c ∧ c ≤ '9' then some (c.toNat - '0'.toNat) else none

/-- Modelled from the spec: accumulate decimal digits left to right,
failing on the first non-digit. Auxiliary to `parseIntText`. -/
def digitsValAux : List Char → Nat → Option Nat
  | [], acc => some acc
  | c :: rest, acc =>
    match digitVal c with
    | some d => digitsValAux rest (acc * 10 + d)
    | none => none

/-- Modelled from the spec: the numeric value of a nonempty all-digit
character sequence, `none` otherwise. Auxiliary to `parseIntText`. -/
def digitsVal : List Char → Option Nat
  | [] => none
  | cs => digitsValAux cs 0

/-- Modelled from the spec: the builtin `int()` coercion that
`__translate_mode` applies to its argument — standard-library code that is
not part of this repository's sources.  It parses an optional sign
followed by decimal digits ("an ASCII numeric string"), and `none` stands
for the `ValueError` that `int()` raises on malformed (non-numeric) text. -/
def parseIntText (s : String) : Option Int :=
  match s.data with
  | '-' :: rest => (digitsVal rest).map (fun n => -(n : Int))
  | '+' :: rest => (digitsVal rest).map (fun n => (n : Int))
  | l => (digitsVal l).map (fun n => (n : Int))

/-- Embedding of `__translate_mode` on the raw textual argument: the
source first applies `int(mode_coded_integer)` and only then decodes; a
coercion failure propagates, a coercion success always decodes. -/
def translate_mode_text (s : String) : Option Int :=
  (parseIntText s).map translate_mode

/-! ### Bitwise-OR facts about the sentinel -/

/-- OR-ing `-1` (all bits set, in two's-complement reading) on the right
absorbs any integer. -/
theorem lor_neg_one (x : Int) : Int.lor x (-1) = -1 := by
  show Int.lor x (Int.negSucc 0) = Int.negSucc 0
  cases x with
  | ofNat m => simp [Int.lor, Nat.ldiff, Nat.bitwise_zero_left]
  | negSucc m => simp [Int.lor, Nat.and_zero]

/-- OR-ing `-1` on the left absorbs any integer. -/
theorem neg_one_lor (x : Int) : Int.lor (-1) x = -1 := by
  show Int.lor (Int.negSucc 0) x = Int.negSucc 0
  cases x with
  | ofNat m => simp [Int.lor, Nat.ldiff, Nat.bitwise_zero_left]
  | negSucc m => simp [Int.lor, Nat.zero_and]

/-- `Int.lor` on two natural-number casts is the natural-number `|||`. -/
theorem natCast_lor (m n : Nat) : Int.lor (m : Int) (n : Int) = ((m ||| n : Nat) : Int) := rfl

/-- `Int.land` on two natural-number casts is the natural-number `&&&`. -/
theorem natCast_land (m n : Nat) : Int.land (m : Int) (n : Int) = ((m &&& n : Nat) : Int) := rfl

/-! ### The translation fold -/

/-- Once the accumulator is the sentinel `-1`, the fold stays at `-1`. -/
theorem translateLoop_neg_one : ∀ l : List Int, translateLoop l (-1) = -1 := by
  intro l
  induction l with
  | nil => rfl
  | cons b rest ih =>
    by_cases hb : Thermotron3800Mode.isNamedMember b
    · simpa [translateLoop, hb, neg_one_lor] using ih
    · simpa [translateLoop, hb, Thermotron3800Mode.UNKNOWN_MODE, neg_one_lor] using ih

/-- If any element of the bit list is not a named member, the fold ORs in
the sentinel `-1`, which absorbs everything: the result is `-1`
regardless of the initial accumulator. -/
theorem translateLoop_of_unnamed :
    ∀ (l : List Int) (a : Int), (∃ x, x ∈ l ∧ Thermotron3800Mode.isNamedMember x = false) →
      translateLoop l a = -1 := by
  intro l
  induction l with
  | nil => rintro a ⟨x, hx, -⟩; exact absurd hx (List.not_mem_nil x)
  | cons b rest ih =>
    rintro a ⟨x, hx, hnamed⟩
    rcases List.mem_cons.mp hx with rfl | hxrest
    · simp only [translateLoop, hnamed, Bool.false_eq_true, if_false,
        Thermotron3800Mode.UNKNOWN_MODE, lor_neg_one]
      exact translateLoop_neg_one rest
    · by_cases hb : Thermotron3800Mode.isNamedMember b
      · simpa [translateLoop, hb] using ih _ ⟨x, hxrest, hnamed⟩
      · simp only [translateLoop, hb, Bool.false_eq_true, if_false,
          Thermotron3800Mode.UNKNOWN_MODE, lor_neg_one]
        exact translateLoop_neg_one rest

/-- Folding nonnegative bits from a nonnegative accumulator yields either a
nonnegative result (all bits named) or the sentinel `-1`. -/
theorem translateLoop_nonneg :
    ∀ (l : List Int) (a : Int), (∀ x ∈ l, 0 ≤ x) → 0 ≤ a →
      0 ≤ translateLoop l a ∨ translateLoop l a = -1 := by
  intro l
  induction l with
  | nil => intro a _ ha; exact Or.inl ha
  | cons b rest ih =>
    intro a hl ha
    by_cases hb : Thermotron3800Mode.isNamedMember b
    · have hbpos : 0 ≤ b := hl b (List.mem_cons_self b rest)
      obtain ⟨ma, rfl⟩ : ∃ m : Nat, a = (m : Int) := ⟨a.toNat, (Int.toNat_of_nonneg ha).symm⟩
      obtain ⟨mb, rfl⟩ : ∃ m : Nat, b = (m : Int) := ⟨b.toNat, (Int.toNat_of_nonneg hbpos).symm⟩
      have := ih (Int.lor (ma : Int) (mb : Int))
        (fun x hx => hl x (List.mem_cons_of_mem _ hx))
        (by rw [natCast_lor]; exact Int.natCast_nonneg _)
      simpa [translateLoop, hb] using this
    · simp only [translateLoop, hb, Bool.false_eq_true, if_false,
        Thermotron3800Mode.UNKNOWN_MODE, lor_neg_one]
      exact Or.inr (translateLoop_neg_one rest)

/-! ### Termination and characterization of the bit-extraction loop -/

/-- `maskVal` is positive. -/
theorem maskVal_pos (k : Nat) : 0 < maskVal k := by
  simp only [maskVal]
  exact_mod_cast Nat.two_pow_pos k

/-- Fuel sufficiency: since the mask doubles every iteration, once
`modeInt < 2 ^ (k + fuel)` the loop-guard fails within `fuel` further
iterations, so a budget of `fuel + 1` guard evaluations returns a result. -/
theorem getBitLoop_isSome :
    ∀ (fuel : Nat) (modeInt : Int) (k : Nat) (acc : List Int),
      modeInt < maskVal (k + fuel) → (getBitLoop (fuel + 1) modeInt k acc).isSome := by
  intro fuel
  induction fuel with
  | zero =>
    intro modeInt k acc h
    rw [getBitLoop, if_neg (by simpa using not_le.mpr h)]
    rfl
  | succ fuel ih =>
    intro modeInt k acc h
    rw [getBitLoop]
    split
    · exact ih modeInt (k + 1) _ (by simpa [Nat.add_comm, Nat.add_assoc, Nat.add_left_comm] using h)
    · rfl

/-- The iteration budget chosen by `get_bit_array_from_int` always
suffices: `n < 2 ^ n.toNat` for every integer `n`. -/
theorem getBitLoop_budget_isSome (n : Int) : (getBitLoop (n.toNat + 1) n 0 []).isSome := by
  refine getBitLoop_isSome n.toNat n 0 [] ?_
  rcases le_or_lt 0 n with hn | hn
  · have h1 : n.toNat < 2 ^ n.toNat := Nat.lt_two_pow n.toNat
    simp only [maskVal, Nat.zero_add]
    omega
  · exact lt_of_lt_of_le hn (by exact_mod_cast (maskVal_pos (0 + n.toNat)).le)

/-- Full characterization of the loop on a nonnegative input `m`: starting
at bit position `k` with accumulator `acc`, the loop returns `acc`
followed by the powers of two at the set bit positions of `m` in
`[k, k + fuel)`, in ascending position order. -/
theorem getBitLoop_eq :
    ∀ (fuel k : Nat) (m : Nat) (acc : List Int), (m : Int) < maskVal (k + fuel) →
      getBitLoop (fuel + 1) (m : Int) k acc =
        some (acc ++ ((List.range' k fuel).filter m.testBit).map
          (fun j => ((2 ^ j : Nat) : Int))) := by
  intro fuel
  induction fuel with
  | zero =>
    intro k m acc h
    rw [getBitLoop, if_neg (by simpa using not_le.mpr h)]
    simp
  | succ fuel ih =>
    intro k m acc h
    rw [getBitLoop]
    by_cases hk : maskVal k ≤ (m : Int)
    · rw [if_pos hk]
      have hland : Int.land (m : Int) (maskVal k) = ((m &&& 2 ^ k : Nat) : Int) :=
        natCast_land m (2 ^ k)
      have hrec := ih (k + 1) m
        (if Int.land (m : Int) (maskVal k) ≠ 0 then
          acc ++ [Int.land (m : Int) (maskVal k)] else acc)
        (by simpa [Nat.add_comm, Nat.add_assoc, Nat.add_left_comm] using h)
      rw [hrec, List.range'_succ, List.filter_cons]
      by_cases htb : m.testBit k
      · have hand : m &&& 2 ^ k = 2 ^ k := by rw [Nat.and_two_pow, htb]; simp
        have hne : ((2 ^ k : Nat) : Int) ≠ 0 := by positivity
        simp [hland, hand, htb, List.append_assoc, hne]
      · have hand : m &&& 2 ^ k = 0 := by
          rw [Nat.and_two_pow, Bool.eq_false_iff.mpr htb]; simp
        simp [hland, hand, htb]
    · rw [if_neg hk]
      have hmk : m < 2 ^ k := by
        have h2 : (m : Int) < ((2 ^ k : Nat) : Int) := by simpa [maskVal] using not_le.mp hk
        exact_mod_cast h2
      have hfilter : (List.range' k (fuel + 1)).filter m.testBit = [] := by
        refine List.filter_eq_nil_iff.mpr ?_
        intro j hj
        have hkj : k ≤ j := by
          rcases List.mem_range'.mp hj with ⟨i, -, rfl⟩
          omega
        simp [Nat.testBit_eq_false_of_lt
          (lt_of_lt_of_le hmk (Nat.pow_le_pow_right (by norm_num) hkj))]
      rw [hfilter]
      simp

/-- `get_bit_array_from_int` on a nonnegative input returns exactly the
powers of two at the set bit positions of the input, in ascending order of
position. -/
theorem get_bit_array_eq (m : Nat) :
    get_bit_array_from_int (m : Int) =
      ((List.range m).filter m.testBit).map (fun j => ((2 ^ j : Nat) : Int)) := by
  have h : ((m : Int)).toNat = m := Int.toNat_natCast m
  have hm : (m : Int) < maskVal (0 + m) := by
    have : m < 2 ^ (0 + m) := by simpa using Nat.lt_two_pow m
    simp only [maskVal]
    exact_mod_cast this
  rw [get_bit_array_from_int, h, getBitLoop_eq m 0 m [] hm]
  rw [List.range_eq_range']
  rfl

/-- Membership in the extracted bit list: exactly the powers of two at the
set bit positions of the input. -/
theorem mem_get_bit_array (m : Nat) (x : Int) :
    x ∈ get_bit_array_from_int (m : Int) ↔
      ∃ j, m.testBit j = true ∧ x = ((2 ^ j : Nat) : Int) := by
  rw [get_bit_array_eq]
  simp only [List.mem_map, List.mem_filter, List.mem_range]
  constructor
  · rintro ⟨j, ⟨-, htb⟩, rfl⟩
    exact ⟨j, htb, rfl⟩
  · rintro ⟨j, htb, rfl⟩
    exact ⟨j, ⟨lt_of_lt_of_le (Nat.lt_two_pow j) (Nat.testBit_implies_ge htb), htb⟩, rfl⟩

/-- The extracted bit list is strictly ascending. -/
theorem get_bit_array_pairwise (m : Nat) :
    (get_bit_array_from_int (m : Int)).Pairwise (· < ·) := by
  rw [get_bit_array_eq]
  refine List.Pairwise.map _ (fun a b hab => ?_) ((List.pairwise_lt_range m).filter _)
  have h : (2 : Nat) ^ a < 2 ^ b := Nat.pow_lt_pow_right (by norm_num) hab
  exact_mod_cast h

/-- Sum of the powers of two at the set bit positions of `m` that lie in
`[k, k + fuel)`, provided `m < 2 ^ (k + fuel)` (so no set position of `m`
is at or beyond `k + fuel`): it is `m` with the low `k` bits cleared,
written `2 ^ k * (m / 2 ^ k)`. -/
theorem sum_filter_range' :
    ∀ (fuel k m : Nat), m < 2 ^ (k + fuel) →
      (((List.range' k fuel).filter m.testBit).map (fun j => 2 ^ j)).sum =
        2 ^ k * (m / 2 ^ k) := by
  intro fuel
  induction fuel with
  | zero =>
    intro k m h
    rw [Nat.add_zero] at h
    simp [Nat.div_eq_of_lt h]
  | succ fuel ih =>
    intro k m h
    have hih := ih (k + 1) m (by
      have he : (k + 1) + fuel = k + (fuel + 1) := by omega
      rw [he]; exact h)
    rw [List.range'_succ]
    have hdiv : m / 2 ^ (k + 1) = (m / 2 ^ k) / 2 := by
      rw [Nat.pow_succ, ← Nat.div_div_eq_div_mul]
    by_cases htb : m.testBit k
    · have hq : m / 2 ^ k % 2 = 1 := by
        have h1 := htb
        rw [Nat.testBit_to_div_mod] at h1
        exact of_decide_eq_true h1
      rw [List.filter_cons_of_pos htb, List.map_cons, List.sum_cons, hih, hdiv]
      have hq2 : m / 2 ^ k = 2 * (m / 2 ^ k / 2) + 1 := by omega
      rw [Nat.pow_succ]
      nth_rewrite 2 [hq2]
      ring
    · have hq : m / 2 ^ k % 2 = 0 := by
        have h1 := htb
        rw [Nat.testBit_to_div_mod] at h1
        have h2 := of_decide_eq_false (Bool.eq_false_iff.mpr h1)
        omega
      rw [List.filter_cons_of_neg (by simpa using htb), hih, hdiv]
      have hq2 : m / 2 ^ k = 2 * (m / 2 ^ k / 2) := by omega
      rw [Nat.pow_succ]
      nth_rewrite 2 [hq2]
      ring

/-- The extracted bit list sums to the input: no set bit is dropped and
nothing else is collected. -/
theorem get_bit_array_sum (m : Nat) : (get_bit_array_from_int (m : Int)).sum = (m : Int) := by
  rw [get_bit_array_eq, List.range_eq_range']
  have h := sum_filter_range' m 0 m (by simpa using Nat.lt_two_pow m)
  have hc : ((List.range' 0 m).filter m.testBit).map (fun j => ((2 ^ j : Nat) : Int)) =
      (((List.range' 0 m).filter m.testBit).map (fun j => (2 ^ j : Nat))).map
        (Nat.cast : Nat → Int) := by
    rw [List.map_map]
    rfl
  rw [hc, ← Nat.cast_list_sum, h]
  simp

/-! ### The membership test -/

/-- Every single-bit value at one of the eight known positions is a named
member. -/
theorem isNamedMember_low (j : Nat) (hj : j < 8) :
    Thermotron3800Mode.isNamedMember ((2 ^ j : Nat) : Int) = true := by
  interval_cases j <;> decide

/-- No integer `≥ 256` is a named member value. -/
theorem isNamedMember_large (v : Int) (hv : 256 ≤ v) :
    Thermotron3800Mode.isNamedMember v = false := by
  refine decide_eq_false ?_
  simp only [Thermotron3800Mode.memberValues, Thermotron3800Mode.PROGRAM_MODE,
    Thermotron3800Mode.EDIT_MODE_STOP, Thermotron3800Mode.VIEW_PROGRAM_MODE,
    Thermotron3800Mode.EDIT_MODE_HOLD, Thermotron3800Mode.MANUAL_MODE,
    Thermotron3800Mode.DELAYED_START_MODE, Thermotron3800Mode.UNUSED,
    Thermotron3800Mode.CALIBRATION_MODE, Thermotron3800Mode.UNKNOWN_MODE,
    List.mem_cons, List.not_mem_nil, or_false]
  omega

/-- On negative input the loop guard `1 <= mode_int` fails immediately, so
the bit list is empty and the translation returns the sentinel. -/
theorem neg_input_decodes (n : Int) (hn : n < 0) :
    get_bit_array_from_int n = [] ∧ translate_mode n = Thermotron3800Mode.UNKNOWN_MODE := by
  have harr : get_bit_array_from_int n = [] := by
    rw [get_bit_array_from_int, getBitLoop,
      if_neg (by simp only [maskVal]; push_cast; omega)]
    rfl
  exact ⟨harr, by simp [translate_mode, harr, translateLoop]⟩

set_option maxRecDepth 10000 in
set_option maxHeartbeats 1600000 in
/-- Exhaustive byte-range check: every status code in `[1, 255]` decodes
to itself. -/
theorem translate_mode_byte :
    ∀ m : Nat, m < 256 → 1 ≤ m → translate_mode (m : Int) = (m : Int) := by decide

/-! ### Claims -/

/-- C1: For a status code whose only set bit lies outside the 8 known Mode
Flag values (a single set bit at position `k ≥ 8`, e.g. `decode(256)` with
bit 8 set), `__translate_mode` returns the `UNKNOWN_MODE` sentinel: the
unrecognized bit is folded into UNKNOWN rather than raising an error or
appearing as itself in the result. -/
theorem C1_single_unknown_bit_decodes_to_unknown (k : Nat) (hk : 8 ≤ k) :
    translate_mode ((2 ^ k : Nat) : Int) = Thermotron3800Mode.UNKNOWN_MODE := by
  have hmem : ((2 ^ k : Nat) : Int) ∈ get_bit_array_from_int ((2 ^ k : Nat) : Int) :=
    (mem_get_bit_array (2 ^ k) _).mpr
      ⟨k, (Nat.testBit_two_pow_self : ((2 : Nat) ^ k).testBit k = true), rfl⟩
  have hn : Thermotron3800Mode.isNamedMember ((2 ^ k : Nat) : Int) = false := by
    refine isNamedMember_large _ ?_
    have h8 : (2 : Nat) ^ 8 ≤ 2 ^ k := Nat.pow_le_pow_right (by norm_num) hk
    have h256 : (256 : Nat) ≤ 2 ^ k := by norm_num at h8 ⊢; exact h8
    exact_mod_cast h256
  have hloop := translateLoop_of_unnamed (get_bit_array_from_int ((2 ^ k : Nat) : Int)) 0
    ⟨_, hmem, hn⟩
  simp only [translate_mode, hloop]
  norm_num [Thermotron3800Mode.UNKNOWN_MODE]

/-- Witness for C1 at the concrete input `256`. -/
theorem C1_witness : translate_mode 256 = Thermotron3800Mode.UNKNOWN_MODE := by
  have h := C1_single_unknown_bit_decodes_to_unknown 8 (by norm_num)
  norm_num at h
  exact h

/-- C2: For every status code in `[1, 255]`, `__translate_mode` decomposes
exactly along the set bits with no recognized bit dropped: the result is
the bitwise OR of the known Mode Flags at the set bits, so its integer
value equals the status code; in particular `decode(1) = PROGRAM_MODE`,
`decode(3) = PROGRAM_MODE ||| EDIT_MODE_STOP` and
`decode(129) = PROGRAM_MODE ||| CALIBRATION_MODE`. -/
theorem C2_byte_decomposes_exactly :
    (∀ n : Int, 1 ≤ n → n ≤ 255 → translate_mode n = n) ∧
    translate_mode 1 = Thermotron3800Mode.PROGRAM_MODE ∧
    translate_mode 3 =
      Int.lor Thermotron3800Mode.PROGRAM_MODE Thermotron3800Mode.EDIT_MODE_STOP ∧
    translate_mode 129 =
      Int.lor Thermotron3800Mode.PROGRAM_MODE Thermotron3800Mode.CALIBRATION_MODE := by
  refine ⟨?_, by decide, by decide, by decide⟩
  intro n h1 h255
  have hn : n = ((n.toNat : Nat) : Int) := (Int.toNat_of_nonneg (by omega)).symm
  rw [hn]
  exact translate_mode_byte n.toNat (by omega) (by omega)

/-- Witness for C2 at the concrete input `129`. -/
theorem C2_witness : (1 : Int) ≤ 129 ∧ (129 : Int) ≤ 255 ∧ translate_mode 129 = 129 :=
  ⟨by norm_num, by norm_num, C2_byte_decomposes_exactly.1 129 (by norm_num) (by norm_num)⟩

/-- C3: For every status code containing both at least one recognized Mode
Flag bit (position `< 8`) and at least one unrecognized bit (position
`≥ 8`, e.g. `257 = bit 0 + bit 8`), the fallback ORs the `UNKNOWN_MODE`
sentinel `-1` — all bits set in the signed representation — into the
otherwise-valid combination, so the returned value equals `-1` and the
recognized flags are no longer distinguishable in the result. -/
theorem C3_mixed_bits_collapse_to_unknown (m : Nat)
    (_hrec : ∃ j, j < 8 ∧ m.testBit j = true)
    (hunrec : ∃ j, 8 ≤ j ∧ m.testBit j = true) :
    translate_mode (m : Int) = Thermotron3800Mode.UNKNOWN_MODE := by
  obtain ⟨j, hj8, hjtb⟩ := hunrec
  have hmem : ((2 ^ j : Nat) : Int) ∈ get_bit_array_from_int (m : Int) :=
    (mem_get_bit_array m _).mpr ⟨j, hjtb, rfl⟩
  have hn : Thermotron3800Mode.isNamedMember ((2 ^ j : Nat) : Int) = false := by
    refine isNamedMember_large _ ?_
    have h8 : (2 : Nat) ^ 8 ≤ 2 ^ j := Nat.pow_le_pow_right (by norm_num) hj8
    have h256 : (256 : Nat) ≤ 2 ^ j := by norm_num at h8 ⊢; exact h8
    exact_mod_cast h256
  have hloop := translateLoop_of_unnamed (get_bit_array_from_int (m : Int)) 0
    ⟨_, hmem, hn⟩
  simp only [translate_mode, hloop]
  norm_num [Thermotron3800Mode.UNKNOWN_MODE]

/-- Witness for C3 at the concrete input `257` (bits 0 and 8 set). -/
theorem C3_witness : translate_mode ((257 : Nat) : Int) = Thermotron3800Mode.UNKNOWN_MODE :=
  C3_mixed_bits_collapse_to_unknown 257
    ⟨0, by norm_num, by decide⟩ ⟨8, by norm_num, by decide⟩

/-- C4: `decode(0)` returns the UNKNOWN sentinel alone: with no bits set
the bit accumulation is empty, and `__translate_mode` returns
`UNKNOWN_MODE` rather than `0` or an empty flag combination. -/
theorem C4_zero_decodes_to_unknown :
    get_bit_array_from_int 0 = [] ∧ translate_mode 0 = Thermotron3800Mode.UNKNOWN_MODE := by
  decide

/-- C5: `get_bit_array_from_int` scans bit positions `0` upward while
`1 << position <= input` and collects each set bit as its power-of-two
value: on every nonnegative input the returned list consists of exactly
the powers of two set in the input, in strictly ascending order, and sums
to the input. -/
theorem C5_bit_array_characterization (m : Nat) :
    get_bit_array_from_int (m : Int) =
      ((List.range m).filter m.testBit).map (fun j => ((2 ^ j : Nat) : Int)) ∧
    (∀ x : Int, x ∈ get_bit_array_from_int (m : Int) ↔
      ∃ j, m.testBit j = true ∧ x = ((2 ^ j : Nat) : Int)) ∧
    (get_bit_array_from_int (m : Int)).Pairwise (· < ·) ∧
    (get_bit_array_from_int (m : Int)).sum = (m : Int) :=
  ⟨get_bit_array_eq m, mem_get_bit_array m, get_bit_array_pairwise m, get_bit_array_sum m⟩

/-- Witness for C5 at the concrete input `10`: sum recovery. -/
theorem C5_witness : (get_bit_array_from_int ((10 : Nat) : Int)).sum = ((10 : Nat) : Int) :=
  (C5_bit_array_characterization 10).2.2.2

/-- C6: The decoder raises no error for any integer status code:
malformed (non-numeric) status text fails only at the `int()` coercion
boundary, while every successfully coerced integer decodes to a result —
in particular the embedded loop always returns a value within its budget,
so decoding never fails after coercion. -/
theorem C6_errors_only_at_coercion_boundary :
    (∀ (s : String) (n : Int), parseIntText s = some n →
      translate_mode_text s = some (translate_mode n)) ∧
    (∀ s : String, parseIntText s = none → translate_mode_text s = none) ∧
    (∀ n : Int, getBitLoop (n.toNat + 1) n 0 [] = some (get_bit_array_from_int n)) := by
  refine ⟨fun s n h => by simp [translate_mode_text, h],
    fun s h => by simp [translate_mode_text, h], fun n => ?_⟩
  obtain ⟨l, hl⟩ := Option.isSome_iff_exists.mp (getBitLoop_budget_isSome n)
  rw [get_bit_array_from_int, hl]
  rfl

/-- Witness for C6 at the concrete input `"42"`. -/
theorem C6_witness : translate_mode_text "42" = some (translate_mode 42) :=
  C6_errors_only_at_coercion_boundary.1 "42" 42 (by decide)

/-- C7: The decoder is deterministic and pure: two evaluations on equal
inputs yield equal results, both for the bit extraction and for the full
decode (stateless shallow embedding: there is no state to mutate). -/
theorem C7_deterministic (a b : Int) (hab : a = b) :
    translate_mode a = translate_mode b ∧
      get_bit_array_from_int a = get_bit_array_from_int b := by
  subst hab
  exact ⟨rfl, rfl⟩

/-- Witness for C7 at the concrete input `3`. -/
theorem C7_witness :
    translate_mode 3 = translate_mode 3 ∧
      get_bit_array_from_int 3 = get_bit_array_from_int 3 :=
  C7_deterministic 3 3 rfl

/-- C8: `get_bit_array_from_int` terminates for every integer input: the
mask starts at `1` and strictly doubles each iteration, so the loop guard
`mask <= mode_int` fails within `toNat(mode_int) + 1` guard evaluations —
the loop, run with that iteration budget, always returns a result. -/
theorem C8_loop_terminates (n : Int) : (getBitLoop (n.toNat + 1) n 0 []).isSome = true :=
  getBitLoop_budget_isSome n

/-- C9: For every negative integer input (outside the spec's non-negative
precondition) the decoder degrades gracefully: the loop guard
`1 <= mode_int` is false immediately, so `get_bit_array_from_int` returns
the empty list and `__translate_mode` returns `UNKNOWN_MODE` without
raising. -/
theorem C9_negative_input_graceful (n : Int) (hn : n < 0) :
    get_bit_array_from_int n = [] ∧ translate_mode n = Thermotron3800Mode.UNKNOWN_MODE :=
  neg_input_decodes n hn

/-- Witness for C9 at the concrete input `-5`. -/
theorem C9_witness :
    get_bit_array_from_int (-5) = [] ∧
      translate_mode (-5) = Thermotron3800Mode.UNKNOWN_MODE :=
  C9_negative_input_graceful (-5) (by norm_num)

/-- C10: `__translate_mode` never returns the empty flag combination: for
every integer input the result is either `UNKNOWN_MODE = -1` or a nonzero
(indeed positive) combination of flags, because a zero accumulation is
replaced by `UNKNOWN_MODE` in the final return and OR-ing the nonnegative
bit values keeps the accumulator nonnegative. -/
theorem C10_result_never_zero (n : Int) :
    translate_mode n = Thermotron3800Mode.UNKNOWN_MODE ∨ 1 ≤ translate_mode n := by
  rcases lt_or_le n 0 with hn | hn
  · exact Or.inl (neg_input_decodes n hn).2
  · obtain ⟨m, rfl⟩ : ∃ m : Nat, n = (m : Int) := ⟨n.toNat, (Int.toNat_of_nonneg hn).symm⟩
    have hlist : ∀ x ∈ get_bit_array_from_int (m : Int), (0 : Int) ≤ x := by
      intro x hx
      obtain ⟨j, -, rfl⟩ := (mem_get_bit_array m x).mp hx
      positivity
    have hm := translateLoop_nonneg (get_bit_array_from_int (m : Int)) 0 hlist le_rfl
    simp only [translate_mode]
    by_cases h0 : translateLoop (get_bit_array_from_int (m : Int)) 0 = 0
    · rw [if_neg (not_not_intro h0)]
      exact Or.inl rfl
    · rw [if_pos h0]
      rcases hm with hge | hneg
      · right; omega
      · exact Or.inl (by rw [hneg]; rfl)

end Thermotron3800
